import Mathlib

/-!
Shallow embedding of the MonteCarloSimulator core (C++), together with
theorems checking the repository's specification against the code.

Numeric modelling: every C++ `double` value stored by the program is a
rational number, so aggregator and result arithmetic is embedded over `ℚ`
(exact arithmetic; floating-point rounding itself is not modelled).  The
only inherently irrational operation, `std::sqrt`, is modelled by
`Real.sqrt` over `ℝ`.  Machine integers (`std::uint64_t`, `size_t`,
`unsigned`) are embedded as `ℕ` with explicit `% 2^64` / `% 2^32`
reductions exactly where C++ performs a wrap or a narrowing cast.
-/

namespace MonteCarlo

/-- State of `montecarlo::WelfordAggregator` from
`src/include/montecarlo/core/result.hpp`: fields `mean_`, `m2_`, `count_`. -/
@[ext]
structure WelfordAggregator where
  count : ℕ
  mean : ℚ
  m2 : ℚ
  deriving DecidableEq, Repr

namespace WelfordAggregator

/-- The freshly constructed (empty) aggregator: `mean_ = 0, m2_ = 0, count_ = 0`. -/
def init : WelfordAggregator := ⟨0, 0, 0⟩

/-- `WelfordAggregator::add` (result.hpp lines 48-54):
`count_++; delta = value - mean_; mean_ += delta / count_;
 delta2 = value - mean_; m2_ += delta * delta2`. -/
def add (s : WelfordAggregator) (value : ℚ) : WelfordAggregator :=
  let count := s.count + 1
  let delta := value - s.mean
  let mean := s.mean + delta / (count : ℚ)
  let delta2 := value - mean
  ⟨count, mean, s.m2 + delta * delta2⟩

/-- `WelfordAggregator::result` (result.hpp lines 56-58): returns `mean_`. -/
def result (s : WelfordAggregator) : ℚ := s.mean

/-- `WelfordAggregator::variance` (result.hpp lines 60-62):
`count_ > 1 ? m2_ / (count_ - 1) : 0.0` (the subtraction happens only under
the guard `count_ > 1`, so it never wraps). -/
def variance (s : WelfordAggregator) : ℚ :=
  if 1 < s.count then s.m2 / ((s.count : ℚ) - 1) else 0

/-- `WelfordAggregator::std_error` (result.hpp lines 64-66):
`count_ > 0 ? sqrt(variance() / count_) : 0.0`.  `std::sqrt` is modelled by
`Real.sqrt`. -/
noncomputable def std_error (s : WelfordAggregator) : ℝ :=
  if 0 < s.count then Real.sqrt ((variance s : ℝ) / (s.count : ℝ)) else 0

/-- `WelfordAggregator::merge` (result.hpp lines 69-83), Chan's parallel
variance combination. -/
def merge (s other : WelfordAggregator) : WelfordAggregator :=
  if other.count = 0 then s
  else if s.count = 0 then other
  else
    let total : ℚ := ((s.count : ℚ) + (other.count : ℚ))
    let delta : ℚ := other.mean - s.mean
    { count := s.count + other.count
      mean := s.mean + delta * ((other.count : ℚ) / total)
      m2 := s.m2 + other.m2 +
        delta * delta * ((s.count : ℚ) * (other.count : ℚ) / total) }

/-- `WelfordAggregator::reset` (result.hpp lines 85-89): back to the empty state. -/
def reset (_ : WelfordAggregator) : WelfordAggregator := init

/-- Aggregator obtained by feeding a finite sequence of values, in order,
into a fresh `WelfordAggregator` via `add`. -/
def ofList (xs : List ℚ) : WelfordAggregator := xs.foldl add init

/-- Virtual first moment carried by a state: `mean_ * count_`.  For a state
built from a sample list this is the sample sum. -/
def wsum (s : WelfordAggregator) : ℚ := s.mean * (s.count : ℚ)

/-- Virtual second moment carried by a state: `m2_ + mean_^2 * count_`.  For
a state built from a sample list this is the sum of squared samples. -/
def wsq (s : WelfordAggregator) : ℚ := s.m2 + s.mean * s.mean * (s.count : ℚ)

end WelfordAggregator

/-- Sum of squared values of a list. -/
def sumSq (xs : List ℚ) : ℚ := (xs.map fun x => x * x).sum

/-! ## Parallel execution policy
(src/include/montecarlo/execution/parallel.hpp) and its legacy variant
(src/execution/parallel.hpp) -/

/-- Worker-count normalization performed by the `Parallel` constructor
(parallel.hpp lines 11-12): `num_threads > 0 ? num_threads :
std::thread::hardware_concurrency()`.  The detected hardware parallelism is
an environment input, modelled as the argument `hardware`; the C++ standard
permits `hardware_concurrency()` to return 0 when the value is not
computable. -/
def parallelNumThreads (numThreads hardware : ℕ) : ℕ :=
  if 0 < numThreads then numThreads else hardware

/-- Per-worker trial count in `Parallel::run` (parallel.hpp lines 19-23):
`iters_per_thread = iterations / num_threads_; remaining = iterations %
num_threads_; thread_iters = iters_per_thread + (t < remaining ? 1 : 0)`. -/
def threadIters (iterations numThreads t : ℕ) : ℕ :=
  iterations / numThreads + if t < iterations % numThreads then 1 else 0

/-! ## RNG substream factory (src/include/montecarlo/core/rng.hpp) -/

/-- The four 32-bit words that `make_rng` (rng.hpp lines 8-17) places into
the `std::seed_seq`: `{unsigned(seed), unsigned(seed >> 32),
unsigned(stream_id), unsigned(stream_id >> 32)}`.  The narrowing cast to
`unsigned` reduces modulo 2^32.  A `std::mt19937_64` generator is seeded
purely from these words, so a generator is identified with its word
list. -/
def makeRngWords (seed streamId : ℕ) : List ℕ :=
  [seed % 2 ^ 32, seed / 2 ^ 32 % 2 ^ 32, streamId % 2 ^ 32, streamId / 2 ^ 32 % 2 ^ 32]

/-- `DefaultRngFactory::operator()` (rng.hpp lines 20-25) calls
`make_rng(seed)`, leaving `stream_id` at its default value 0. -/
def defaultRngFactoryWords (seed : ℕ) : List ℕ := makeRngWords seed 0

/-- Seeding words of worker `t` in `Parallel::run` (parallel.hpp line 25):
`rng_factory(seed + static_cast<uint64_t>(t))` with the default factory;
the `uint64_t` addition wraps modulo 2^64. -/
def parallelWorkerWords (seed t : ℕ) : List ℕ :=
  defaultRngFactoryWords ((seed + t) % 2 ^ 64)

/-- Replay loop shared by both fallback merge phases: the inner loop
`for i in [0, local_agg.count()): agg.add(local_agg.result())` re-adds the
local aggregator's scalar `result()` exactly `count()` times. -/
def replayResult (acc l : WelfordAggregator) : WelfordAggregator :=
  (List.replicate l.count l.result).foldl WelfordAggregator.add acc

/-- Merge phase of `Parallel::run` in
src/include/montecarlo/execution/parallel.hpp (lines 42-56) when the
aggregator exposes a `merge` member (the `if constexpr` branch taken for
`WelfordAggregator`): `agg.reset()`, then `agg.merge(local_agg)` over the
per-worker aggregators in index order. -/
def parallelCombineMerge (locals : List WelfordAggregator) : WelfordAggregator :=
  locals.foldl WelfordAggregator.merge WelfordAggregator.init

/-- Merge phase of the legacy `Parallel::run` in src/execution/parallel.hpp
(lines 37-51): after `agg.reset()`, unconditionally re-adds each local
aggregator's `result()` (for Welford, the partition mean) `count()`
times. -/
def legacyParallelCombine (locals : List WelfordAggregator) : WelfordAggregator :=
  locals.foldl replayResult WelfordAggregator.init

/-! ## HistogramAggregator
(src/include/montecarlo/core/result.hpp lines 100-131) -/

structure HistogramAggregator where
  bins : List ℕ
  min : ℚ
  max : ℚ
  binWidth : ℚ
  count : ℕ
  deriving DecidableEq, Repr

namespace HistogramAggregator

/-- The `HistogramAggregator(bins, min, max)` constructor (result.hpp lines
102-104): zeroed bins and `bin_width_ = (max - min) / bins`. -/
def make (nbins : ℕ) (lo hi : ℚ) : HistogramAggregator :=
  ⟨List.replicate nbins 0, lo, hi, (hi - lo) / (nbins : ℚ), 0⟩

/-- `HistogramAggregator::add` (result.hpp lines 106-113): an in-range value
increments its bin (guarded by `idx < bins_.size()`); `count_` is always
incremented.  `static_cast<size_t>` of the non-negative quotient is its
floor. -/
def add (s : HistogramAggregator) (value : ℚ) : HistogramAggregator :=
  let s' :=
    if s.min ≤ value ∧ value < s.max then
      let idx := (⌊(value - s.min) / s.binWidth⌋).toNat
      if idx < s.bins.length then
        { s with bins := s.bins.set idx (s.bins.getD idx 0 + 1) }
      else s
    else s
  { s' with count := s'.count + 1 }

/-- `HistogramAggregator::result` (result.hpp lines 115-117):
`count_ > 0 ? static_cast<double>(count_) : 0.0`. -/
def result (s : HistogramAggregator) : ℚ :=
  if 0 < s.count then (s.count : ℚ) else 0

/-- `HistogramAggregator::reset` (result.hpp lines 121-124). -/
def reset (s : HistogramAggregator) : HistogramAggregator :=
  { s with bins := List.replicate s.bins.length 0, count := 0 }

/-- Histogram fed a finite sequence of values in order. -/
def ofList (s0 : HistogramAggregator) (xs : List ℚ) : HistogramAggregator :=
  xs.foldl add s0

end HistogramAggregator

/-- Merge phase of `Parallel::run` in
src/include/montecarlo/execution/parallel.hpp (lines 42-56) for an
aggregator *without* a `merge` member (e.g. `HistogramAggregator`): the
`if constexpr` fallback replays each non-empty local aggregator's
`result()` value `count()` times via `add` into the reset destination. -/
def parallelCombineHist (dest : HistogramAggregator)
    (locals : List HistogramAggregator) : HistogramAggregator :=
  locals.foldl
    (fun acc l =>
      if 0 < l.count then
        (List.replicate l.count l.result).foldl HistogramAggregator.add acc
      else acc)
    dest.reset

/-! ## Result and confidence intervals (result.hpp lines 6-42) -/

/-- `montecarlo::Result` (result.hpp lines 6-12).  The wall-clock field
`elapsed_ms` is real time and is not modelled. -/
structure Result where
  estimate : ℝ
  variance : ℝ
  standard_error : ℝ
  iterations : ℕ

/-- z-score selection inside `confidence_interval` (result.hpp lines
32-36): `double z = 1.96; if (level >= 0.99) z = 2.576; else if (level >=
0.95) z = 1.96; else if (level >= 0.90) z = 1.645;`. -/
def ciZ (level : ℚ) : ℚ :=
  if 99 / 100 ≤ level then 2576 / 1000
  else if 95 / 100 ≤ level then 196 / 100
  else if 9 / 10 ≤ level then 1645 / 1000
  else 196 / 100

structure ConfidenceInterval where
  lower : ℝ
  upper : ℝ
  confidence_level : ℚ

/-- `confidence_interval` (result.hpp lines 29-42): the normal
approximation interval `estimate ± z · standard_error`. -/
noncomputable def confidence_interval (r : Result) (level : ℚ) : ConfidenceInterval :=
  ⟨r.estimate - (ciZ level : ℝ) * r.standard_error,
   r.estimate + (ciZ level : ℝ) * r.standard_error, level⟩

/-! ## SimulationEngine (src/include/montecarlo/core/engine.hpp) composed
with the Sequential policy
(src/include/montecarlo/execution/sequential.hpp).

A trial model is embedded in generator-state-passing style: it consumes a
generator state `σ` and returns the sampled value with the advanced
generator state. -/

structure SimulationEngine (σ : Type) where
  model : σ → ℚ × σ
  transform : ℚ → ℚ
  rngFactory : ℕ → σ
  base_seed : ℕ

/-- Trial loop of `Sequential::run` (sequential.hpp lines 10-22) running
the engine's wrapped model (`transform` applied to each raw trial before
aggregation, engine.hpp lines 70-73). -/
def seqLoop {σ : Type} (model : σ → ℚ × σ) (tr : ℚ → ℚ) :
    ℕ → σ × WelfordAggregator → σ × WelfordAggregator
  | 0, p => p
  | n + 1, (g, agg) =>
    let (raw, g') := model g
    seqLoop model tr n (g', agg.add (tr raw))

/-- `SimulationEngine::run` (engine.hpp lines 64-80): fresh aggregator,
`policy_.run(wrapped_model, agg, iterations, base_seed_)`, then
`construct_result` (engine.hpp lines 131-141); elapsed wall-clock time is
not modelled. -/
noncomputable def SimulationEngine.run {σ : Type} (e : SimulationEngine σ)
    (iterations : ℕ) : Result :=
  let agg := (seqLoop e.model e.transform iterations
    (e.rngFactory e.base_seed, WelfordAggregator.init)).2
  { estimate := (agg.result : ℝ)
    variance := (agg.variance : ℝ)
    standard_error := agg.std_error
    iterations := iterations }

/-- `SimulationEngine::simulate` (engine.hpp lines 89-96): saves
`base_seed_`, overwrites it with the override, runs, restores the saved
seed.  The pair returned is (result of the call, engine state after the
call). -/
noncomputable def SimulationEngine.simulate {σ : Type} (e : SimulationEngine σ)
    (iterations seed : ℕ) : Result × SimulationEngine σ :=
  let old_seed := e.base_seed
  let e1 := { e with base_seed := seed }
  let r := e1.run iterations
  (r, { e1 with base_seed := old_seed })

/-- `SimulationEngine::seed` accessor (engine.hpp lines 101-103). -/
def SimulationEngine.seed {σ : Type} (e : SimulationEngine σ) : ℕ := e.base_seed

/-! ## Failure behaviour of `Parallel::run` -/

/-- Worker trial loop of `Parallel::run` (parallel.hpp lines 24-35) for a
model whose trials may fail: an error aborts the loop (in C++, by stack
unwinding out of the loop body). -/
def workerLoop {σ ε : Type} (model : σ → Except ε (ℚ × σ)) :
    ℕ → σ → WelfordAggregator → Except ε WelfordAggregator
  | 0, _, agg => .ok agg
  | n + 1, g, agg =>
    match model g with
    | .error e => .error e
    | .ok (v, g') => workerLoop model n g' (agg.add v)

/-- Observable outcome of a `Parallel::run` call: a merged aggregate, a
failure value delivered to the caller, or termination of the whole
process. -/
inductive RunOutcome (ε : Type) where
  | ok (agg : WelfordAggregator) : RunOutcome ε
  | propagated (e : ε) : RunOutcome ε
  | terminated : RunOutcome ε
  deriving DecidableEq

def exceptHasValue {ε α : Type} : Except ε α → Bool
  | .ok _ => true
  | .error _ => false

/-- `Parallel::run` (include/montecarlo/execution/parallel.hpp lines 14-57)
with a fallible model.  Worker `t` runs `threadIters` trials seeded from
`rng_factory(seed + t)`; the caller joins all threads, and if every worker
body completed the per-worker aggregators are merged in index order into
the reset destination.  The thread bodies contain no exception handler, so
a trial failure escapes the thread's start function; per the C++ standard
this invokes `std::terminate`, modelled as `RunOutcome.terminated`.  No
statement in the source stores or re-raises a worker exception, so no path
produces `RunOutcome.propagated`. -/
def parallelRun {σ ε : Type} (rngF : ℕ → σ) (model : σ → Except ε (ℚ × σ))
    (numThreads iterations seed : ℕ) : RunOutcome ε :=
  let locals := (List.range numThreads).map fun t =>
    workerLoop model (threadIters iterations numThreads t)
      (rngF ((seed + t) % 2 ^ 64)) WelfordAggregator.init
  if locals.all exceptHasValue then
    .ok (parallelCombineMerge (locals.filterMap Except.toOption))
  else .terminated

/-! ## Helper lemmas: exact-arithmetic Welford/Chan moment calculus -/

theorem welford_add_count (s : WelfordAggregator) (x : ℚ) :
    (s.add x).count = s.count + 1 := rfl

theorem welford_add_wsum (s : WelfordAggregator) (x : ℚ) :
    (s.add x).wsum = s.wsum + x := by
  have hne : ((s.count : ℚ) + 1) ≠ 0 := by positivity
  simp only [WelfordAggregator.add, WelfordAggregator.wsum]
  push_cast
  field_simp
  ring

theorem welford_add_wsq (s : WelfordAggregator) (x : ℚ) :
    (s.add x).wsq = s.wsq + x * x := by
  have hne : ((s.count : ℚ) + 1) ≠ 0 := by positivity
  simp only [WelfordAggregator.add, WelfordAggregator.wsq]
  push_cast
  field_simp
  ring

theorem welford_add_m2_nonneg (s : WelfordAggregator) (x : ℚ) (h : 0 ≤ s.m2) :
    0 ≤ (s.add x).m2 := by
  have hne : ((s.count : ℚ) + 1) ≠ 0 := by positivity
  simp only [WelfordAggregator.add]
  have hrw : (x - s.mean) * (x - (s.mean + (x - s.mean) / ((s.count : ℚ) + 1))) =
      (x - s.mean) ^ 2 * ((s.count : ℚ) / ((s.count : ℚ) + 1)) := by
    field_simp
    ring
  push_cast
  rw [hrw]
  have : 0 ≤ (x - s.mean) ^ 2 * ((s.count : ℚ) / ((s.count : ℚ) + 1)) := by positivity
  linarith

theorem welford_foldl_count (xs : List ℚ) : ∀ s : WelfordAggregator,
    (xs.foldl WelfordAggregator.add s).count = s.count + xs.length := by
  induction xs with
  | nil => intro s; simp
  | cons x xs ih =>
    intro s
    simp only [List.foldl_cons, List.length_cons, ih (s.add x), welford_add_count]
    omega

theorem welford_foldl_wsum (xs : List ℚ) : ∀ s : WelfordAggregator,
    (xs.foldl WelfordAggregator.add s).wsum = s.wsum + xs.sum := by
  induction xs with
  | nil => intro s; simp
  | cons x xs ih =>
    intro s
    simp only [List.foldl_cons, List.sum_cons, ih (s.add x), welford_add_wsum]
    ring

theorem welford_foldl_wsq (xs : List ℚ) : ∀ s : WelfordAggregator,
    (xs.foldl WelfordAggregator.add s).wsq = s.wsq + sumSq xs := by
  induction xs with
  | nil => intro s; simp [sumSq]
  | cons x xs ih =>
    intro s
    simp only [List.foldl_cons, sumSq, List.map_cons, List.sum_cons, ih (s.add x),
      welford_add_wsq]
    simp only [sumSq] at *
    ring

theorem welford_foldl_m2_nonneg (xs : List ℚ) : ∀ s : WelfordAggregator,
    0 ≤ s.m2 → 0 ≤ (xs.foldl WelfordAggregator.add s).m2 := by
  induction xs with
  | nil => intro s h; simpa using h
  | cons x xs ih =>
    intro s h
    exact ih (s.add x) (welford_add_m2_nonneg s x h)

theorem ofList_count (xs : List ℚ) : (WelfordAggregator.ofList xs).count = xs.length := by
  simp [WelfordAggregator.ofList, welford_foldl_count, WelfordAggregator.init]

theorem ofList_wsum (xs : List ℚ) : (WelfordAggregator.ofList xs).wsum = xs.sum := by
  simpa [WelfordAggregator.wsum, WelfordAggregator.init] using
    welford_foldl_wsum xs WelfordAggregator.init

theorem ofList_wsq (xs : List ℚ) : (WelfordAggregator.ofList xs).wsq = sumSq xs := by
  simpa [WelfordAggregator.wsq, WelfordAggregator.init] using
    welford_foldl_wsq xs WelfordAggregator.init

theorem ofList_m2_nonneg (xs : List ℚ) : 0 ≤ (WelfordAggregator.ofList xs).m2 :=
  welford_foldl_m2_nonneg xs WelfordAggregator.init le_rfl

theorem ofList_nil : WelfordAggregator.ofList [] = WelfordAggregator.init := rfl

theorem ofList_m2_of_count_zero (A : List ℚ) (h : (WelfordAggregator.ofList A).count = 0) :
    (WelfordAggregator.ofList A).m2 = 0 := by
  rw [ofList_count] at h
  have : A = [] := List.length_eq_zero.mp h
  subst this
  rfl

theorem welford_merge_count (s t : WelfordAggregator) :
    (s.merge t).count = s.count + t.count := by
  by_cases ht : t.count = 0
  · simp [WelfordAggregator.merge, ht]
  · by_cases hs : s.count = 0
    · simp [WelfordAggregator.merge, ht, hs]
    · simp [WelfordAggregator.merge, ht, hs]

theorem welford_merge_wsum (s t : WelfordAggregator) :
    (s.merge t).wsum = s.wsum + t.wsum := by
  by_cases ht : t.count = 0
  · simp [WelfordAggregator.merge, ht, WelfordAggregator.wsum]
  · by_cases hs : s.count = 0
    · simp [WelfordAggregator.merge, ht, hs, WelfordAggregator.wsum]
    · have h1 : (0 : ℚ) < (s.count : ℚ) := by
        exact_mod_cast Nat.pos_of_ne_zero hs
      have h2 : (0 : ℚ) ≤ (t.count : ℚ) := by positivity
      have htot : ((s.count : ℚ) + (t.count : ℚ)) ≠ 0 := by linarith
      simp only [WelfordAggregator.merge, ht, hs, if_false, if_neg,
        WelfordAggregator.wsum]
      push_cast
      field_simp
      ring

theorem welford_merge_wsq (s t : WelfordAggregator) (hs0 : s.count = 0 → s.m2 = 0)
    (ht0 : t.count = 0 → t.m2 = 0) : (s.merge t).wsq = s.wsq + t.wsq := by
  by_cases ht : t.count = 0
  · simp [WelfordAggregator.merge, ht, WelfordAggregator.wsq, ht0 ht]
  · by_cases hs : s.count = 0
    · simp [WelfordAggregator.merge, ht, hs, WelfordAggregator.wsq, hs0 hs]
    · have h1 : (0 : ℚ) < (s.count : ℚ) := by
        exact_mod_cast Nat.pos_of_ne_zero hs
      have h2 : (0 : ℚ) ≤ (t.count : ℚ) := by positivity
      have htot : ((s.count : ℚ) + (t.count : ℚ)) ≠ 0 := by linarith
      simp only [WelfordAggregator.merge, ht, hs, if_false, if_neg,
        WelfordAggregator.wsq]
      push_cast
      field_simp
      ring

/-- Two aggregator states with the same positive count and the same virtual
moments are equal. -/
theorem welford_eq_of_moments (s t : WelfordAggregator) (hc : s.count = t.count)
    (h0 : 0 < s.count) (hsum : s.wsum = t.wsum) (hsq : s.wsq = t.wsq) : s = t := by
  have hcq : ((s.count : ℚ)) ≠ 0 :=
    Nat.cast_ne_zero.mpr (Nat.pos_iff_ne_zero.mp h0)
  have hmean : s.mean = t.mean := by
    have := hsum
    simp only [WelfordAggregator.wsum, ← hc] at this
    exact mul_right_cancel₀ hcq this
  have hm2 : s.m2 = t.m2 := by
    have := hsq
    simp only [WelfordAggregator.wsq, ← hc, hmean] at this
    linarith
  ext <;> simp [hc, hmean, hm2]

/-- The central merge law, in exact arithmetic: merging the aggregators of
two sample lists gives exactly the aggregator of their concatenation. -/
theorem merge_ofList (A B : List ℚ) :
    (WelfordAggregator.ofList A).merge (WelfordAggregator.ofList B) =
      WelfordAggregator.ofList (A ++ B) := by
  by_cases hAB : A.length + B.length = 0
  · have hA : A = [] := List.length_eq_zero.mp (by omega)
    have hB : B = [] := List.length_eq_zero.mp (by omega)
    subst hA; subst hB
    simp [ofList_nil, WelfordAggregator.merge, WelfordAggregator.init]
  · apply welford_eq_of_moments
    · rw [welford_merge_count, ofList_count, ofList_count, ofList_count,
        List.length_append]
    · rw [welford_merge_count, ofList_count, ofList_count]
      omega
    · rw [welford_merge_wsum, ofList_wsum, ofList_wsum, ofList_wsum, List.sum_append]
    · rw [welford_merge_wsq (WelfordAggregator.ofList A) (WelfordAggregator.ofList B)
        (ofList_m2_of_count_zero A) (ofList_m2_of_count_zero B),
        ofList_wsq, ofList_wsq, ofList_wsq]
      simp [sumSq]

/-- Feeding the same samples in a different block order yields the same
state (exact arithmetic). -/
theorem ofList_append_comm (A B : List ℚ) :
    WelfordAggregator.ofList (A ++ B) = WelfordAggregator.ofList (B ++ A) := by
  by_cases hAB : A.length + B.length = 0
  · have hA : A = [] := List.length_eq_zero.mp (by omega)
    have hB : B = [] := List.length_eq_zero.mp (by omega)
    subst hA; subst hB; rfl
  · apply welford_eq_of_moments
    · simp [ofList_count, Nat.add_comm]
    · simp [ofList_count]; omega
    · simp [ofList_wsum, List.sum_append]; ring
    · simp [ofList_wsq, sumSq]; ring

/-- Merging the empty state into a list-built aggregator is the identity. -/
theorem init_merge_ofList (A : List ℚ) :
    WelfordAggregator.init.merge (WelfordAggregator.ofList A) =
      WelfordAggregator.ofList A := by
  simpa [ofList_nil] using merge_ofList [] A

theorem sum_ite_lt (W r : ℕ) (hr : r ≤ W) :
    (∑ i ∈ Finset.range W, if i < r then 1 else 0) = r := by
  induction W with
  | zero => simp; omega
  | succ W ih =>
    rw [Finset.sum_range_succ]
    rcases Nat.lt_or_ge W r with h | h
    · have hrW : r = W + 1 := by omega
      subst hrW
      have hall : ∀ i ∈ Finset.range W, (if i < W + 1 then 1 else 0) = 1 := by
        intro i hi
        exact if_pos (Nat.lt_succ_of_lt (Finset.mem_range.mp hi))
      rw [if_pos h, Finset.sum_congr rfl hall, Finset.sum_const, Finset.card_range,
        smul_eq_mul, mul_one]
    · rw [if_neg (Nat.not_lt.mpr h), ih h, add_zero]

theorem threadIters_sum (iterations numThreads : ℕ) (h : 0 < numThreads) :
    ∑ i ∈ Finset.range numThreads, threadIters iterations numThreads i = iterations := by
  unfold threadIters
  have hmod : iterations % numThreads < numThreads := Nat.mod_lt _ h
  rw [Finset.sum_add_distrib, Finset.sum_const, Finset.card_range,
    sum_ite_lt _ _ hmod.le, smul_eq_mul]
  have hdm := Nat.div_add_mod iterations numThreads
  omega

theorem makeRngWords_inj_seed (a b : ℕ) (ha : a < 2 ^ 64) (hb : b < 2 ^ 64)
    (h : makeRngWords a 0 = makeRngWords b 0) : a = b := by
  simp only [makeRngWords, List.cons.injEq, and_true] at h
  obtain ⟨h1, h2⟩ := h
  have e32 : (2 : ℕ) ^ 32 = 4294967296 := by norm_num
  have e64 : (2 : ℕ) ^ 64 = 18446744073709551616 := by norm_num
  rw [e32] at h1 h2
  rw [e64] at ha hb
  omega

/-! ## Claim theorems -/

/-- C1, counterexample: the claim says worker 1 under base seed 42 is seeded
as `derive(42, 1)` (seed-sequence words `[42, 0, 1, 0]`); the code instead
passes `seed + t` to the default factory with stream id 0, producing words
`[43, 0, 0, 0]`. -/
theorem parallel_seeding_differs_from_derive :
    parallelWorkerWords 42 1 ≠ makeRngWords 42 1 := by decide

/-- C1 (amended): worker `t`'s generator is built by applying the RNG
factory to `(seed + t) mod 2^64` with stream id 0, so its seeding words are
the two 32-bit halves of the wrapped sum followed by two zero words; the
scheme still gives distinct workers distinct seeding material (for worker
indices below 2^64 under a fixed seed). -/
theorem parallel_worker_seeding_scheme :
    (∀ seed t : ℕ, parallelWorkerWords seed t =
      [(seed + t) % 2 ^ 64 % 2 ^ 32, (seed + t) % 2 ^ 64 / 2 ^ 32 % 2 ^ 32, 0, 0])
    ∧ ∀ seed t₁ t₂ : ℕ, t₁ < 2 ^ 64 → t₂ < 2 ^ 64 → t₁ ≠ t₂ →
      parallelWorkerWords seed t₁ ≠ parallelWorkerWords seed t₂ := by
  constructor
  · intro seed t
    simp [parallelWorkerWords, defaultRngFactoryWords, makeRngWords]
  · intro seed t₁ t₂ h₁ h₂ hne h
    simp only [parallelWorkerWords, defaultRngFactoryWords] at h
    have ha : (seed + t₁) % 2 ^ 64 < 2 ^ 64 := Nat.mod_lt _ (by norm_num)
    have hb : (seed + t₂) % 2 ^ 64 < 2 ^ 64 := Nat.mod_lt _ (by norm_num)
    have heq := makeRngWords_inj_seed _ _ ha hb h
    have e64 : (2 : ℕ) ^ 64 = 18446744073709551616 := by norm_num
    rw [e64] at heq h₁ h₂
    omega

/-- C1 witness: two concrete distinct workers under seed 7 receive distinct
seeding material. -/
theorem parallel_worker_seeding_scheme_witness :
    parallelWorkerWords 7 0 ≠ parallelWorkerWords 7 1 :=
  parallel_worker_seeding_scheme.2 7 0 1 (by norm_num) (by norm_num) (by norm_num)

/-- C2: in exact arithmetic, merging the aggregators independently built
from sub-sequences A and B equals the aggregator built from `A ++ B`
outright — hence the counts agree and mean and variance agree within any
relative tolerance, in particular 1e-9 — and `merge` on list-built
aggregators is commutative and associative. -/
theorem welford_merge_partition_law (A B : List ℚ) :
    (WelfordAggregator.ofList A).merge (WelfordAggregator.ofList B) =
      WelfordAggregator.ofList (A ++ B)
    ∧ ((WelfordAggregator.ofList A).merge (WelfordAggregator.ofList B)).count =
      (WelfordAggregator.ofList (A ++ B)).count
    ∧ |((WelfordAggregator.ofList A).merge (WelfordAggregator.ofList B)).mean -
        (WelfordAggregator.ofList (A ++ B)).mean| ≤
      1 / 1000000000 * |(WelfordAggregator.ofList (A ++ B)).mean|
    ∧ |((WelfordAggregator.ofList A).merge (WelfordAggregator.ofList B)).variance -
        (WelfordAggregator.ofList (A ++ B)).variance| ≤
      1 / 1000000000 * |(WelfordAggregator.ofList (A ++ B)).variance|
    ∧ (WelfordAggregator.ofList A).merge (WelfordAggregator.ofList B) =
      (WelfordAggregator.ofList B).merge (WelfordAggregator.ofList A)
    ∧ ∀ C : List ℚ,
      ((WelfordAggregator.ofList A).merge (WelfordAggregator.ofList B)).merge
          (WelfordAggregator.ofList C) =
        (WelfordAggregator.ofList A).merge
          ((WelfordAggregator.ofList B).merge (WelfordAggregator.ofList C)) := by
  have h := merge_ofList A B
  refine ⟨h, by rw [h], ?_, ?_, ?_, ?_⟩
  · rw [h, sub_self, abs_zero]
    positivity
  · rw [h, sub_self, abs_zero]
    positivity
  · rw [merge_ofList A B, merge_ofList B A]
    exact ofList_append_comm A B
  · intro C
    rw [merge_ofList A B, merge_ofList B C, merge_ofList (A ++ B) C,
      merge_ofList A (B ++ C), List.append_assoc]

/-- C3, counterexample: the legacy Parallel policy (src/execution/
parallel.hpp, cited by the claim) combines the per-worker aggregators of
samples [0,2] and [0,2] by re-adding each partition's mean, which differs
from the merge-based combination the claim says is always used. -/
theorem legacy_combine_not_merge_based :
    legacyParallelCombine [WelfordAggregator.ofList [0, 2], WelfordAggregator.ofList [0, 2]]
      ≠ parallelCombineMerge [WelfordAggregator.ofList [0, 2],
        WelfordAggregator.ofList [0, 2]] := by
  intro h
  have h2 := congrArg WelfordAggregator.m2 h
  norm_num [legacyParallelCombine, parallelCombineMerge, replayResult, List.replicate,
    WelfordAggregator.ofList, WelfordAggregator.add, WelfordAggregator.result,
    WelfordAggregator.init, WelfordAggregator.merge] at h2

/-- C3 (amended): the include/ Parallel policy combines aggregators that
expose `merge` (such as `WelfordAggregator`) via the true merge, which
exactly reproduces the concatenation aggregator; but its `if constexpr`
fallback for merge-less aggregators (such as `HistogramAggregator`)
replays each partition's scalar `result()`, discarding the partition's
bins, and the legacy Parallel policy always replays partition means,
discarding intra-partition variance (0 instead of 4/3 on the partition
[0,2] | [0,2]). -/
theorem parallel_combine_paths :
    (∀ A B : List ℚ,
      parallelCombineMerge [WelfordAggregator.ofList A, WelfordAggregator.ofList B] =
        WelfordAggregator.ofList (A ++ B))
    ∧ (legacyParallelCombine [WelfordAggregator.ofList [0, 2],
        WelfordAggregator.ofList [0, 2]]).variance = 0
    ∧ (WelfordAggregator.ofList ([0, 2] ++ [0, 2])).variance = 4 / 3
    ∧ (parallelCombineHist (HistogramAggregator.make 4 0 1)
        [HistogramAggregator.ofList (HistogramAggregator.make 4 0 1) [1 / 2],
         HistogramAggregator.ofList (HistogramAggregator.make 4 0 1) [1 / 4]]).bins =
      List.replicate 4 0
    ∧ (HistogramAggregator.ofList (HistogramAggregator.make 4 0 1)
        ([1 / 2] ++ [1 / 4])).bins = [0, 1, 1, 0] := by
  refine ⟨?_, ?_, ?_, ?_, ?_⟩
  · intro A B
    simp only [parallelCombineMerge, List.foldl_cons, List.foldl_nil]
    rw [init_merge_ofList, merge_ofList]
  · norm_num [legacyParallelCombine, replayResult, List.replicate,
      WelfordAggregator.ofList, WelfordAggregator.add, WelfordAggregator.result,
      WelfordAggregator.init, WelfordAggregator.variance]
  · norm_num [WelfordAggregator.ofList, WelfordAggregator.add, WelfordAggregator.init,
      WelfordAggregator.variance]
  · norm_num [parallelCombineHist, HistogramAggregator.ofList, HistogramAggregator.make,
      HistogramAggregator.add, HistogramAggregator.reset, HistogramAggregator.result,
      List.replicate, List.set, List.getD, List.get?]
  · norm_num [HistogramAggregator.ofList, HistogramAggregator.make,
      HistogramAggregator.add, List.replicate, List.set, List.getD, List.get?]
    decide

/-- C4: for `W ≥ 1` workers, the per-worker trial counts of `Parallel::run`
sum exactly to the requested iteration count, the first `n mod W` workers
get `floor(n/W) + 1` trials, and every later worker gets `floor(n/W)`. -/
theorem partition_rule (n W : ℕ) (hW : 1 ≤ W) :
    (∑ i ∈ Finset.range W, threadIters n W i) = n
    ∧ (∀ i, i < n % W → threadIters n W i = n / W + 1)
    ∧ (∀ i, n % W ≤ i → threadIters n W i = n / W) := by
  refine ⟨threadIters_sum n W hW, ?_, ?_⟩
  · intro i hi
    simp [threadIters, hi]
  · intro i hi
    simp [threadIters, Nat.not_lt.mpr hi]

/-- C4 witness: n = 7 trials over W = 3 workers sum to 7 with chunk sizes
[3, 2, 2]. -/
theorem partition_rule_witness :
    (∑ i ∈ Finset.range 3, threadIters 7 3 i) = 7
    ∧ (List.range 3).map (threadIters 7 3) = [3, 2, 2] :=
  ⟨(partition_rule 7 3 (by norm_num)).1, by decide⟩

/-- C5, counterexample: with a model that fails on its first trial, the
worker body fails, yet `Parallel::run` does not deliver that failure to the
caller — the process terminates instead, because the thread body has no
exception handler. -/
theorem worker_failure_not_propagated_cex :
    workerLoop (fun _ : Unit => (Except.error () : Except Unit (ℚ × Unit)))
      (threadIters 1 1 0) () WelfordAggregator.init = Except.error ()
    ∧ parallelRun (fun _ => ()) (fun _ : Unit => (Except.error () : Except Unit (ℚ × Unit)))
      1 1 0 ≠ RunOutcome.propagated () :=
  ⟨rfl, by decide⟩

/-- C5 (amended): if any worker's trial loop fails, `Parallel::run` ends in
process termination (`std::terminate`, since the uncaught exception escapes
the thread start function) — in particular no partial aggregate is
returned — and no run, failing or not, ever propagates a captured failure
value to the caller. -/
theorem parallel_failure_terminates {σ ε : Type} (rngF : ℕ → σ)
    (model : σ → Except ε (ℚ × σ)) (numThreads iterations seed : ℕ) :
    ((∃ t, t < numThreads ∧
        exceptHasValue (workerLoop model (threadIters iterations numThreads t)
          (rngF ((seed + t) % 2 ^ 64)) WelfordAggregator.init) = false) →
      parallelRun rngF model numThreads iterations seed = RunOutcome.terminated)
    ∧ ∀ e : ε, parallelRun rngF model numThreads iterations seed ≠
      RunOutcome.propagated e := by
  constructor
  · rintro ⟨t, ht, hfail⟩
    have hnot : ¬((List.range numThreads).map fun u =>
        workerLoop model (threadIters iterations numThreads u)
          (rngF ((seed + u) % 2 ^ 64)) WelfordAggregator.init).all exceptHasValue = true := by
      rw [List.all_eq_true]
      intro hall
      have hmem := hall _ (List.mem_map_of_mem _ (List.mem_range.mpr ht))
      rw [hfail] at hmem
      exact Bool.false_ne_true hmem
    simp only [parallelRun]
    rw [if_neg hnot]
  · intro e
    simp only [parallelRun]
    by_cases hall : ((List.range numThreads).map fun u =>
        workerLoop model (threadIters iterations numThreads u)
          (rngF ((seed + u) % 2 ^ 64)) WelfordAggregator.init).all exceptHasValue
    · rw [if_pos hall]
      intro h
      exact RunOutcome.noConfusion h
    · rw [if_neg hall]
      intro h
      exact RunOutcome.noConfusion h

/-- C5 witness: a concrete one-worker run whose model fails ends in
process termination. -/
theorem parallel_failure_terminates_witness :
    parallelRun (fun _ => ()) (fun _ : Unit => (Except.error 7 : Except ℕ (ℚ × Unit))) 1 1 0
      = RunOutcome.terminated :=
  (parallel_failure_terminates (fun _ => ()) (fun _ => Except.error 7) 1 1 0).1
    ⟨0, by norm_num, by decide⟩

/-- C6, counterexample: at the unrecognized level 0.92 the claim predicts
the default z = 1.96 (interval lower bound `0 - 1.96·1` for a result with
estimate 0 and standard error 1), but the code's threshold chain selects
z = 1.645. -/
theorem ci_unrecognized_level_cex :
    (confidence_interval ⟨0, 0, 1, 0⟩ (92 / 100)).lower ≠ (0 : ℝ) - 196 / 100 * 1 := by
  norm_num [confidence_interval, ciZ]

/-- C6 (amended): `confidence_interval` returns
`estimate ± z(level)·standard_error` where z is selected by thresholds —
2.576 for level ≥ 0.99, else 1.96 for level ≥ 0.95, else 1.645 for
level ≥ 0.90, else 1.96 — matching the table at exactly 0.90/0.95/0.99 but
giving 1.645 at 0.92 and 2.576 at 0.995 rather than the claimed 1.96
default. -/
theorem ci_threshold_z_selection :
    (∀ (r : Result) (level : ℚ), confidence_interval r level =
      ⟨r.estimate - (ciZ level : ℝ) * r.standard_error,
       r.estimate + (ciZ level : ℝ) * r.standard_error, level⟩)
    ∧ ciZ (9 / 10) = 1645 / 1000 ∧ ciZ (95 / 100) = 196 / 100
    ∧ ciZ (99 / 100) = 2576 / 1000 ∧ ciZ (92 / 100) = 1645 / 1000
    ∧ ciZ (995 / 1000) = 2576 / 1000 ∧ ciZ (1 / 2) = 196 / 100 := by
  refine ⟨fun r level => rfl, ?_, ?_, ?_, ?_, ?_, ?_⟩ <;> norm_num [ciZ]

/-- C7, counterexample: the Parallel constructor performs no clamping, so a
requested worker count of 0 combined with a hardware-concurrency report of
0 (which the C++ standard permits) yields 0 workers, under which `run`
would divide by zero. -/
theorem zero_workers_possible_cex : ¬ 1 ≤ parallelNumThreads 0 0 := by decide

/-- C7 (amended): a positive requested count is used as-is and a requested
count of 0 is replaced by the detected hardware parallelism with no ≥ 1
clamp; the resulting worker count is ≥ 1 whenever the requested count or
the detected parallelism is positive, but is 0 when both are 0. -/
theorem worker_count_normalization (numThreads hardware : ℕ) :
    (0 < numThreads → parallelNumThreads numThreads hardware = numThreads)
    ∧ (numThreads = 0 → parallelNumThreads numThreads hardware = hardware)
    ∧ (0 < numThreads ∨ 0 < hardware → 1 ≤ parallelNumThreads numThreads hardware) := by
  refine ⟨fun h => by simp [parallelNumThreads, h], fun h => by simp [parallelNumThreads, h],
    ?_⟩
  rintro (h | h)
  · simp only [parallelNumThreads, if_pos h]
    omega
  · by_cases h0 : 0 < numThreads
    · simp only [parallelNumThreads, if_pos h0]
      omega
    · have hz : ¬ 0 < numThreads := h0
      simp only [parallelNumThreads, if_neg hz]
      omega

/-- C7 witness: requested count 0 with detected parallelism 4 yields at
least one worker. -/
theorem worker_count_normalization_witness : 1 ≤ parallelNumThreads 0 4 :=
  (worker_count_normalization 0 4).2.2 (Or.inr (by norm_num))

/-- C8: `simulate(iterations, seed)` restores the engine state it started
from — the engine after the call equals the engine before it, its observed
`seed()` is unchanged, the returned result is exactly that of a run with
the override installed, and subsequent `run` calls behave as before the
`simulate` call. -/
theorem simulate_preserves_base_seed {σ : Type} (e : SimulationEngine σ)
    (iterations seed : ℕ) :
    (e.simulate iterations seed).2 = e
    ∧ (e.simulate iterations seed).2.seed = e.seed
    ∧ (e.simulate iterations seed).1 =
      SimulationEngine.run { e with base_seed := seed } iterations
    ∧ ∀ n, (e.simulate iterations seed).2.run n = e.run n := by
  obtain ⟨m, tr, f, s⟩ := e
  exact ⟨rfl, rfl, rfl, fun n => rfl⟩

/-- C9: `variance()` is `M2/(count-1)` for count ≥ 2 and exactly 0 for
count < 2; `std_error()` is `sqrt(variance()/count)` for count ≥ 1 and
exactly 0 for count 0; on every aggregator built from samples the variance
is non-negative, and `std_error` is non-negative on every state (so neither
is ever undefined for small counts). -/
theorem degenerate_statistics_defined :
    (∀ s : WelfordAggregator,
      s.variance = if 2 ≤ s.count then s.m2 / ((s.count : ℚ) - 1) else 0)
    ∧ (∀ s : WelfordAggregator,
      s.std_error = if 1 ≤ s.count then Real.sqrt ((s.variance : ℝ) / (s.count : ℝ)) else 0)
    ∧ (∀ xs : List ℚ, 0 ≤ (WelfordAggregator.ofList xs).variance)
    ∧ (∀ s : WelfordAggregator, 0 ≤ s.std_error) := by
  refine ⟨fun s => rfl, fun s => rfl, ?_, ?_⟩
  · intro xs
    rw [WelfordAggregator.variance]
    split_ifs with h
    · refine div_nonneg (ofList_m2_nonneg xs) ?_
      have h2 : (2 : ℚ) ≤ ((WelfordAggregator.ofList xs).count : ℚ) := by exact_mod_cast h
      linarith
    · exact le_rfl
  · intro s
    rw [WelfordAggregator.std_error]
    split_ifs with h
    · exact Real.sqrt_nonneg _
    · exact le_rfl

/-- C10: `HistogramAggregator::add` always increments the count by one,
leaves every bin unchanged for values outside [min, max); `result()`
returns the count cast to a number (0 when empty), which on the samples
[2, 4] is 2 while their mean is 3 — so `HistogramAggregator` does not
satisfy the aggregator contract that `result()` is the mean. -/
theorem histogram_result_counts_adds :
    (∀ (s : HistogramAggregator) (v : ℚ), (s.add v).count = s.count + 1)
    ∧ (∀ (s : HistogramAggregator) (v : ℚ), v < s.min ∨ s.max ≤ v →
      (s.add v).bins = s.bins)
    ∧ (∀ s : HistogramAggregator, s.result = (s.count : ℚ))
    ∧ (HistogramAggregator.ofList (HistogramAggregator.make 100 0 1) [2, 4]).result = 2
    ∧ (WelfordAggregator.ofList [2, 4]).result = 3 := by
  refine ⟨?_, ?_, ?_, ?_, ?_⟩
  · intro s v
    simp only [HistogramAggregator.add]
    split_ifs <;> rfl
  · intro s v h
    have hcond : ¬(s.min ≤ v ∧ v < s.max) := by
      rintro ⟨h1, h2⟩
      rcases h with h3 | h3
      · exact absurd h1 (not_le.mpr h3)
      · exact absurd h2 (not_lt.mpr h3)
    simp [HistogramAggregator.add, hcond]
  · intro s
    rw [HistogramAggregator.result]
    split_ifs with h
    · rfl
    · have hz : s.count = 0 := by omega
      simp [hz]
  · norm_num [HistogramAggregator.ofList, HistogramAggregator.make,
      HistogramAggregator.add, HistogramAggregator.result]
  · norm_num [WelfordAggregator.ofList, WelfordAggregator.add, WelfordAggregator.init,
      WelfordAggregator.result]

/-- C10 witness: adding the out-of-range value 5 to a fresh 4-bin [0, 1)
histogram leaves its bins unchanged. -/
theorem histogram_result_counts_adds_witness :
    (HistogramAggregator.add (HistogramAggregator.make 4 0 1) 5).bins
      = (HistogramAggregator.make 4 0 1).bins :=
  histogram_result_counts_adds.2.1 (HistogramAggregator.make 4 0 1) 5
    (Or.inr (by norm_num [HistogramAggregator.make]))

end MonteCarlo
